import Mathlib

/-!
Verification development for the legend-state reactivity core.

The development shallowly embeds the repository's `src/helpers.ts` functions
(`isObservable`, `computeSelector`, `lockObservable`, `mergeIntoObservable`)
and, for the engine components whose implementation files are not part of the
visible slice (node graph, tracking contexts, batching, effects, array
reconciliation), models them from the specification's contracts, as marked on
each definition.
-/

set_option maxHeartbeats 1000000

namespace LegendState

/-! ## JavaScript value model

A tagged-variant representation of the JS values the library manipulates:
scalars, arrays, and plain objects.  Plain objects carry their string-keyed
fields in insertion order plus an optional `dateModified` slot standing for
the `symbolDateModified` symbol-keyed property (symbol keys are not
enumerated by `for..in`, so it is kept apart from the string fields). -/

inductive JSVal where
  | undef
  | jnull
  | jbool (b : Bool)
  | jnum (n : Int)
  | jstr (s : String)
  | jdate (t : Nat)
  | jarr (elems : List JSVal)
  | jobj (dm : Option Nat) (fields : List (String × JSVal))
  deriving Repr, Inhabited

/-- JS truthiness of a value. -/
def JSVal.truthy : JSVal → Bool
  | .undef => false
  | .jnull => false
  | .jbool b => b
  | .jnum n => n != 0
  | .jstr s => s != ""
  | .jdate _ => true
  | .jarr _ => true
  | .jobj _ _ => true

/-- Modelled from the spec: the `isObject` predicate of the missing `is.ts`
module, used by `mergeIntoObservable`; it holds of plain objects only (not of
`null`, arrays, or `Date`s), matching the spec's tagged object-map variant. -/
def isObject : JSVal → Bool
  | .jobj _ _ => true
  | _ => false

/-- Modelled from the spec: the `isObjectEmpty` predicate of the missing
`is.ts` module; true exactly for a plain object with no string-keyed field. -/
def isObjectEmpty : JSVal → Bool
  | .jobj _ [] => true
  | _ => false

/-- Look a key up in an object's field list; a missing key reads as
`undefined`, as in JS. -/
def getField (fields : List (String × JSVal)) (k : String) : JSVal :=
  match fields.lookup k with
  | some v => v
  | none => JSVal.undef

/-- Update (or append) one key of an object's field list, in place. -/
def setField : List (String × JSVal) → String → JSVal → List (String × JSVal)
  | [], k, v => [(k, v)]
  | (k', v') :: rest, k, v =>
      if k' = k then (k, v) :: rest else (k', v') :: setField rest k v

/-- Read the child value at a key; children of non-objects read as
`undefined`. -/
def childValue (v : JSVal) (k : String) : JSVal :=
  match v with
  | .jobj _ fs => getField fs k
  | _ => JSVal.undef

/-- Write the child value at a key; writing a child of a non-object value
replaces it with a fresh object holding that single key. -/
def setChildValue (v : JSVal) (k : String) (cv : JSVal) : JSVal :=
  match v with
  | .jobj dm fs => .jobj dm (setField fs k cv)
  | _ => .jobj none [(k, cv)]

/-- Write the `dateModified` slot of a value. -/
def setDM (v : JSVal) (d : Nat) : JSVal :=
  match v with
  | .jobj _ fs => .jobj (some d) fs
  | _ => .jobj (some d) []

/-- Test for the JS `undefined` value (the `source === undefined` check). -/
def JSVal.isUndef : JSVal → Bool
  | .undef => true
  | _ => false

/-! ## Merge targets

`mergeIntoObservable` accepts either a plain JS value or an observable as its
target.  An observable is represented by its current value; reading it is
`peek()`, replacing the value is `set()`. -/

inductive MTarget where
  | plain (v : JSVal)
  | obsv (v : JSVal)
  deriving Repr, Inhabited

/-- Current raw value of a merge target (`peek()` for an observable). -/
def MTarget.value : MTarget → JSVal
  | .plain v => v
  | .obsv v => v

/-- Replace the target's current value (the net effect of `set()` on an
observable, or of in-place mutation on a plain object). -/
def MTarget.withValue : MTarget → JSVal → MTarget
  | .plain _, v => .plain v
  | .obsv _, v => .obsv v

/-- Embedded from `src/helpers.ts` (`isObservable`): a value is an observable
exactly when it is truthy and carries the `symbolIsObservable` marker, which
in this model is the `obsv` constructor. -/
def isObservableT : MTarget → Bool
  | .obsv _ => true
  | .plain _ => false

/-- Modelled from the spec's design notes: an observable handle is a `Proxy`
over the node record (a plain object), so `isObject` applied to an observable
is true regardless of the observable's current value; on a plain target it is
`isObject` of the value itself. -/
def isObjectT : MTarget → Bool
  | .obsv _ => true
  | .plain v => isObject v

/-! ## mergeIntoObservable

Embedded from `src/helpers.ts` (`mergeIntoObservable`).  `mergeOneT`
processes a single source against the target, returning the updated target
together with the list of arguments of the top-level `target.set(...)` calls
it performed (calls to `target[key].set` on child observables are effects on
other objects and are reflected in the returned value instead).
`mergeFields` is the `for (const key in source)` loop. -/

mutual

def mergeOneT (target : MTarget) (source : JSVal) : MTarget × List JSVal :=
  let needsSet := isObservableT target
  let isTargetObj := isObjectT target
  if isTargetObj && isObject source then
    match source with
    | .jobj sdm sfields =>
        let tv0 := target.value
        let tv1 := match sdm with
          | some d => if d != 0 then setDM tv0 d else tv0
          | none => tv0
        (target.withValue (mergeFields needsSet tv1 sfields), [])
    | _ => (target, [])
  else if needsSet && !(isTargetObj && source.isUndef) then
    (target.withValue source, [source])
  else
    (target, [])

def mergeFields (needsSet : Bool) (tv : JSVal) : List (String × JSVal) → JSVal
  | [] => tv
  | (k, sv) :: rest =>
      let tv' :=
        if isObject sv && !isObjectEmpty sv then
          let tvInit :=
            if !needsSet && (!(childValue tv k).truthy || !isObject (childValue tv k))
            then setChildValue tv k (.jobj none []) else tv
          let child : MTarget :=
            if needsSet then .obsv (childValue tvInit k) else .plain (childValue tvInit k)
          setChildValue tvInit k (mergeOneT child sv).1.value
        else
          setChildValue tv k sv
      mergeFields needsSet tv' rest

end

/-- Embedded from `src/helpers.ts` (`mergeIntoObservable`): fold the sources
into the target left to right, accumulating the top-level `target.set`
arguments; with no sources the target is returned as is. -/
def mergeIntoObservable : MTarget → List JSVal → MTarget × List JSVal
  | target, [] => (target, [])
  | target, source :: rest =>
      let r1 := mergeOneT target source
      let r2 := mergeIntoObservable r1.1 rest
      (r2.1, r1.2 ++ r2.2)

/-! ## Selectors (`computeSelector`)

A selector is an observable, a function (optionally taking the observe
event), or any other value.  Functions force a separate carrier type since a
function-valued constructor cannot be compared for equality. -/

inductive SelVal where
  | undef
  | nullv
  | obsv (current : SelVal)
  | other (tag : Nat)
  | fn (f : Option Nat → SelVal)
  deriving Inhabited

/-- Embedded from `src/helpers.ts` (`isObservable`): truthy and carrying the
`symbolIsObservable` marker; `null` and `undefined` short-circuit at the
truthiness check, so they yield false without any property access. -/
def isObservableS : SelVal → Bool
  | .obsv _ => true
  | _ => false

/-- Reading an observable's current value (`.get()`); on a non-observable
this is never invoked by `computeSelector`, and is the identity here. -/
def SelVal.get : SelVal → SelVal
  | .obsv v => v
  | v => v

/-- Embedded from `src/helpers.ts` (`isFunction`-guarded branch of
`computeSelector`): call the selector if it is a function, passing the
observe event exactly when one was supplied, then unwrap the result with
`.get()` if it is an observable. -/
def computeSelector (selector : SelVal) (e : Option Nat) : SelVal :=
  let c := match selector with
    | .fn f => (match e with | some ev => f (some ev) | none => f none)
    | s => s
  if isObservableS c then c.get else c

/-! ## Locking (`lockObservable` and `setValue`)

The tree is a set of nodes, each holding a reference to its tree's shared
root record; the root record carries the `locked` flag. -/

/-- State of one or more observable trees: each node refers to the root
record of its tree (`none` models a handle with no backing node, the
`getNode(obs)?.root` optional chain), root records carry the locked flag, and
each node has a current raw value. -/
structure LockTree where
  nodeRoot : Nat → Option Nat
  locked : Nat → Bool
  values : Nat → Int

/-- Embedded from `src/helpers.ts` (`lockObservable`): look up the node's
`root` record and, when present, set that shared record's `locked` flag. -/
def lockObservable (s : LockTree) (node : Nat) (value : Bool) : LockTree :=
  match s.nodeRoot node with
  | some r => { s with locked := fun r' => if r' = r then value else s.locked r' }
  | none => s

/-- Failure conditions of a write. -/
inductive WriteError where
  | writeRejected
  deriving DecidableEq, Repr

/-- Modelled from the spec: `setValue(node, value)` of the node-graph module
(not part of the visible slice). Per section 4.1, writing through a node
that is locked fails with a WriteRejected condition; the locked flag consulted
is the one on the node's tree-wide root record, which is the flag
`lockObservable` sets. A node with no root record has no flag to consult and
writes proceed. -/
def setValue (s : LockTree) (node : Nat) (v : Int) : Except WriteError LockTree :=
  let isLocked := match s.nodeRoot node with
    | some r => s.locked r
    | none => false
  if isLocked then .error .writeRejected
  else .ok { s with values := fun n => if n = node then v else s.values n }

/-! ## Batching and notification flush

Modelled from the spec (sections 3 "Batch" and 4.3): a process-wide nesting
depth, a pending list of (node, value-before-batch) pairs recorded at the
first write to each node, per-node listener lists and current values.  The
flush at depth 1 -> 0 turns each pending entry into one change record per
listener on that node. -/

structure EngState where
  depth : Nat
  pending : List (Nat × Int)
  values : Nat → Int
  listeners : Nat → List Nat

/-- Change record delivered to one listener: final value plus the lazily
reconstructed previous value (`getPrevious()`). -/
structure Notif where
  node : Nat
  listener : Nat
  value : Int
  prevValue : Int
  deriving DecidableEq, Repr

/-- Modelled from the spec: `beginBatch()` increments the nesting counter. -/
def beginBatch (s : EngState) : EngState := { s with depth := s.depth + 1 }

/-- Whether a node already has a pending entry in the current batch. -/
def pendingHas (pending : List (Nat × Int)) (n : Nat) : Bool :=
  pending.any (fun p => p.1 == n)

/-- Modelled from the spec: recording a write inside a batch.  The first
write to a node captures the pre-batch value into the pending set;
subsequent writes update only the final value. -/
def applyWrite (s : EngState) (n : Nat) (v : Int) : EngState :=
  { s with
    pending := if pendingHas s.pending n then s.pending else s.pending ++ [(n, s.values n)],
    values := fun m => if m = n then v else s.values m }

/-- Modelled from the spec: the depth 1 -> 0 flush emits, for every pending
node, one change record per listener on that node — final value current at
flush time, previous value as captured at the first write — and clears the
pending set. -/
def flushBatch (s : EngState) : EngState × List Notif :=
  ({ s with pending := [] },
   s.pending.flatMap fun p =>
     (s.listeners p.1).map fun l => ⟨p.1, l, s.values p.1, p.2⟩)

/-- Modelled from the spec: `endBatch()` decrements the nesting counter and
triggers the flush exactly on the 1 -> 0 transition. -/
def endBatch (s : EngState) : EngState × List Notif :=
  if s.depth = 1 then flushBatch { s with depth := 0 }
  else ({ s with depth := s.depth - 1 }, [])

/-- Modelled from the spec: a bare write at depth 0 is wrapped in an implicit
depth-1 batch around the single notification; a write inside a batch only
records into the pending set. -/
def batchedSet (s : EngState) (n : Nat) (v : Int) : EngState × List Notif :=
  if s.depth = 0 then endBatch (applyWrite (beginBatch s) n v)
  else (applyWrite s n v, [])

/-- Run a sequence of writes, discarding the (empty, while inside a batch)
notification outputs of the individual writes. -/
def runWrites (s : EngState) : List (Nat × Int) → EngState
  | [] => s
  | w :: ws => runWrites (batchedSet s w.1 w.2).1 ws

/-- Net value of a node after a sequence of writes, starting from `d`: the
value of the last write to that node, if any. -/
def netValue (n : Nat) (ws : List (Nat × Int)) (d : Int) : Int :=
  ws.foldl (fun a w => if w.1 = n then w.2 else a) d

/-! ## Shallow versus deep listener firing

Modelled from the spec (sections 3 "Listener" and 4.3 propagation rule): a
deep listener on a node reacts to any change of the node's value at or below
it; a shallow listener reacts only when the node's key set (for objects) or
length (for arrays) changes. -/

inductive TrackingType where
  | deep
  | shallow
  deriving DecidableEq, Repr

/-- Shallow signature of a container value: the key list for objects, the
length for arrays, and a degenerate tag for scalars. -/
inductive ShallowSig where
  | objKeys (ks : List String)
  | arrLen (n : Nat)
  | prim
  deriving DecidableEq, Repr

/-- Compute the shallow signature, the part of a value shallow listeners
observe. -/
def shallowSig : JSVal → ShallowSig
  | .jobj _ fs => .objKeys (fs.map Prod.fst)
  | .jarr es => .arrLen es.length
  | _ => .prim

/-- Modelled from the spec: whether a listener with the given tracking type
fires when its node's value changes from `oldv` to `newv` — deep on any
difference, shallow only on a key-set/length difference. -/
def listenerFires : TrackingType → JSVal → JSVal → Prop
  | .deep, oldv, newv => oldv ≠ newv
  | .shallow, oldv, newv => shallowSig oldv ≠ shallowSig newv

/-- Delete one key of an object's field list (the effect of key removal). -/
def removeField : List (String × JSVal) → String → List (String × JSVal)
  | [], _ => []
  | (k', v') :: rest, k =>
      if k' = k then rest else (k', v') :: removeField rest k

/-! ## One-shot `when`

Modelled from the spec (section 4.5): `when(predicate, cb)` evaluates the
predicate at creation and again at each notification of its tracked
dependencies; the first truthy evaluation invokes the callback and disposes
the effect, and a disposed effect ignores all further notifications.  The
run is represented by the sequence of predicate values over time (head =
creation-time value); the result lists the evaluation indices at which the
callback was invoked. -/

def whenRunAux (disposed : Bool) (i : Nat) : List JSVal → List Nat
  | [] => []
  | v :: vs =>
      if disposed then whenRunAux disposed (i + 1) vs
      else if v.truthy then i :: whenRunAux true (i + 1) vs
      else whenRunAux false (i + 1) vs

/-- Indices of the predicate-value sequence at which `when` invokes its
callback. -/
def whenRun (vs : List JSVal) : List Nat := whenRunAux false 0 vs

/-- Index of the first truthy value of the sequence, the specification-level
description of the moment the predicate first becomes truthy. -/
def firstTruthyIdx : List JSVal → Option Nat
  | [] => none
  | v :: vs => if v.truthy then some 0 else (firstTruthyIdx vs).map (· + 1)

/-! ## Tracking context stack

Modelled from the spec (sections 3 "Tracking Context" and 4.2): an ambient
stack of contexts, each an ordered list of (node, trackingType) reads; a
read records into the innermost active context only, and is a no-op when the
stack is empty; `runTracked` pushes a fresh context, runs the evaluation,
and pops, returning the reads collected by the inner context. -/

structure TrackState where
  stack : List (List (Nat × TrackingType))
  deriving DecidableEq, Repr

/-- Record one read into the currently active context, if any. -/
def trackRead (s : TrackState) (n : Nat) (t : TrackingType) : TrackState :=
  match s.stack with
  | [] => s
  | c :: rest => ⟨(c ++ [(n, t)]) :: rest⟩

/-- Enter a tracked evaluation: push a fresh empty context. -/
def pushContext (s : TrackState) : TrackState := ⟨[] :: s.stack⟩

/-- Leave a tracked evaluation: pop the innermost context and return its
collected reads. -/
def popContext (s : TrackState) : TrackState × List (Nat × TrackingType) :=
  match s.stack with
  | [] => (s, [])
  | c :: rest => (⟨rest⟩, c)

/-- Perform a sequence of reads against the ambient state. -/
def runReads (s : TrackState) : List (Nat × TrackingType) → TrackState
  | [] => s
  | r :: rs => runReads (trackRead s r.1 r.2) rs

/-- Modelled from the spec: `runTracked(fn)` with the evaluation represented
by the list of reads it performs; returns the restored ambient state and the
dependency set collected for the evaluation. -/
def runTracked (s : TrackState) (reads : List (Nat × TrackingType)) :
    TrackState × List (Nat × TrackingType) :=
  popContext (runReads (pushContext s) reads)

/-! ## Node graph: lazy children and stable identity

Modelled from the spec (sections 3 "Node" and 4.1): nodes are identified by
ids; each node lazily creates one child per key on first access, and
`resolve` walks a key path from a node, creating intermediate nodes as
needed. -/

structure NodeGraph where
  nextId : Nat
  child : Nat → String → Option Nat

/-- Look up the child of a node for a key, creating it (with a fresh id) on
first access. -/
def getChildNode (g : NodeGraph) (node : Nat) (k : String) : NodeGraph × Nat :=
  match g.child node k with
  | some c => (g, c)
  | none =>
      ({ nextId := g.nextId + 1,
         child := fun m k' => if m = node ∧ k' = k then some g.nextId else g.child m k' },
       g.nextId)

/-- Modelled from the spec: `resolve(root, path)` walks the key sequence
from the given node, creating intermediate nodes as needed, and returns the
node for the full path. -/
def resolve (g : NodeGraph) (node : Nat) : List String → NodeGraph × Nat
  | [] => (g, node)
  | k :: p =>
      let r := getChildNode g node k
      resolve r.1 r.2 p

/-- Run a sequence of path resolutions from a root (other accesses happening
during the tree's lifetime). -/
def resolvePaths (g : NodeGraph) (root : Nat) : List (List String) → NodeGraph
  | [] => g
  | p :: ps => resolvePaths (resolve g root p).1 root ps

/-- Extension order between graphs: every existing child edge is preserved. -/
def childExt (g g' : NodeGraph) : Prop :=
  ∀ a b c, g.child a b = some c → g'.child a b = some c

/-! ## Array reconciliation

Modelled from the spec (section 4.6): each element's extracted key is
compared between the old and the new array; a new index whose key already
existed re-points to the existing child node (preserving its id and listener
set under its new index), a new key creates a fresh child, and the whole
mutation is delivered as one notification describing added, removed and
moved keys. -/

structure ArrChild where
  id : Nat
  listeners : List Nat
  deriving DecidableEq, Repr, Inhabited

/-- The single shallow notification describing an array mutation. -/
structure ReconNotif where
  addedKeys : List Nat
  removedKeys : List Nat
  movedKeys : List Nat
  deriving DecidableEq, Repr

/-- Index of a key in a key list (the old-key -> old-index mapping). -/
def keyIndex (k : Nat) : List Nat → Option Nat
  | [] => none
  | k' :: rest => if k' = k then some 0 else (keyIndex k rest).map (· + 1)

/-- Child node placed at new index `j` after reconciliation: the old child
of a matching key, or a fresh node for an added key. -/
def reconChild (oldKeys : List Nat) (children : List ArrChild) (nextId : Nat)
    (newKeys : List Nat) (j : Nat) : ArrChild :=
  match newKeys[j]? with
  | none => ⟨nextId + j, []⟩
  | some k =>
      match keyIndex k oldKeys with
      | some i => (children[i]?).getD ⟨nextId + j, []⟩
      | none => ⟨nextId + j, []⟩

/-- Keys present in both arrays but at different indices. -/
def movedKeyList (oldKeys newKeys : List Nat) : List Nat :=
  (List.range newKeys.length).filterMap fun j =>
    match newKeys[j]? with
    | some k =>
        match keyIndex k oldKeys with
        | some i => if i ≠ j then some k else none
        | none => none
    | none => none

/-- Modelled from the spec: keyed reconciliation of an array node.  Returns
the re-pointed child list (one child per new index) and the notifications
emitted for the whole mutation — a single record listing added, removed and
moved keys. -/
def reconcile (oldKeys : List Nat) (children : List ArrChild) (newKeys : List Nat)
    (nextId : Nat) : List ArrChild × List ReconNotif :=
  ((List.range newKeys.length).map (reconChild oldKeys children nextId newKeys),
   [⟨newKeys.filter (fun k => !oldKeys.contains k),
     oldKeys.filter (fun k => !newKeys.contains k),
     movedKeyList oldKeys newKeys⟩])

/-! ## Theorems -/

/-- C8: `mergeIntoObservable` with no sources is an identity — it returns the
target itself, and performs no mutation of the target's value (in particular
no `set` call is made). -/
theorem mergeIntoObservable_no_sources_id (t : MTarget) :
    mergeIntoObservable t [] = (t, []) := rfl

/-- C10: `computeSelector` case analysis — a function selector is called
(with the observe event exactly when one is supplied) and its result is
unwrapped via `.get()` when it is an observable; an observable selector
yields `selector.get()`; any other selector is returned unchanged; and
`isObservable` holds exactly of marker-carrying values, returning false
(without any property access, hence without throwing) on null and
undefined. -/
theorem computeSelector_cases :
    (∀ (f : Option Nat → SelVal) (ev : Nat),
        computeSelector (.fn f) (some ev) =
          (if isObservableS (f (some ev)) then (f (some ev)).get else f (some ev))) ∧
    (∀ (f : Option Nat → SelVal),
        computeSelector (.fn f) none =
          (if isObservableS (f none) then (f none).get else f none)) ∧
    (∀ (v : SelVal) (e : Option Nat), computeSelector (.obsv v) e = SelVal.get (.obsv v)) ∧
    (∀ (v : SelVal), SelVal.get (.obsv v) = v) ∧
    (∀ (t : Nat) (e : Option Nat), computeSelector (.other t) e = .other t) ∧
    (∀ (e : Option Nat), computeSelector .undef e = .undef) ∧
    (∀ (e : Option Nat), computeSelector .nullv e = .nullv) ∧
    isObservableS .undef = false ∧
    isObservableS .nullv = false ∧
    (∀ v, isObservableS (.obsv v) = true) :=
  ⟨fun _ _ => rfl, fun _ => rfl, fun _ _ => rfl, fun _ => rfl, fun _ _ => rfl,
   fun _ => rfl, fun _ => rfl, rfl, rfl, fun _ => rfl⟩

/-- C9: merging `undefined` never clears an object-valued observable — for an
observable target whose current value is an object,
`mergeIntoObservable(target, undefined)` leaves the value unchanged and makes
no `target.set` call; and whenever a top-level `target.set` does happen, the
source was a defined non-object (and the call passed exactly that source), so
only a non-object target (impossible for an observable handle, which is
itself an object) or a defined non-object source can trigger it. -/
theorem mergeIntoObservable_undefined_noop (v : JSVal) (hv : isObject v = true) :
    mergeIntoObservable (.obsv v) [JSVal.undef] = (.obsv v, []) ∧
    (∀ s : JSVal, (mergeIntoObservable (.obsv v) [s]).2 ≠ [] →
       (s ≠ JSVal.undef ∧ isObject s = false ∧
        (mergeIntoObservable (.obsv v) [s]).2 = [s])) := by
  constructor
  · simp [mergeIntoObservable, mergeOneT, isObservableT, isObjectT, isObject, JSVal.isUndef]
  · intro s hne
    cases s with
    | undef =>
        exfalso
        apply hne
        simp [mergeIntoObservable, mergeOneT, isObservableT, isObjectT, isObject, JSVal.isUndef]
    | jobj dm fsx =>
        exfalso
        apply hne
        simp [mergeIntoObservable, mergeOneT, isObservableT, isObjectT, isObject, JSVal.isUndef]
    | jnull =>
        refine ⟨by simp, rfl, ?_⟩
        simp [mergeIntoObservable, mergeOneT, isObservableT, isObjectT, isObject, JSVal.isUndef]
    | jbool b =>
        refine ⟨by simp, rfl, ?_⟩
        simp [mergeIntoObservable, mergeOneT, isObservableT, isObjectT, isObject, JSVal.isUndef]
    | jnum n =>
        refine ⟨by simp, rfl, ?_⟩
        simp [mergeIntoObservable, mergeOneT, isObservableT, isObjectT, isObject, JSVal.isUndef]
    | jstr st =>
        refine ⟨by simp, rfl, ?_⟩
        simp [mergeIntoObservable, mergeOneT, isObservableT, isObjectT, isObject, JSVal.isUndef]
    | jdate t =>
        refine ⟨by simp, rfl, ?_⟩
        simp [mergeIntoObservable, mergeOneT, isObservableT, isObjectT, isObject, JSVal.isUndef]
    | jarr els =>
        refine ⟨by simp, rfl, ?_⟩
        simp [mergeIntoObservable, mergeOneT, isObservableT, isObjectT, isObject, JSVal.isUndef]

/-- C9 witness: a concrete object-valued observable target — merging
`undefined` is a no-op with no set call, while merging the number 3 calls
`set` with exactly that source. -/
theorem mergeIntoObservable_undefined_noop_witness :
    (isObject (JSVal.jobj none [("a", JSVal.jnum 1)]) = true) ∧
    ((mergeIntoObservable (.obsv (JSVal.jobj none [("a", JSVal.jnum 1)])) [JSVal.jnum 3]).2 ≠ []) ∧
    (mergeIntoObservable (.obsv (JSVal.jobj none [("a", JSVal.jnum 1)])) [JSVal.undef] =
      (.obsv (JSVal.jobj none [("a", JSVal.jnum 1)]), [])) ∧
    (JSVal.jnum 3 ≠ JSVal.undef ∧ isObject (JSVal.jnum 3) = false ∧
     (mergeIntoObservable (.obsv (JSVal.jobj none [("a", JSVal.jnum 1)])) [JSVal.jnum 3]).2 =
       [JSVal.jnum 3]) := by
  have h := mergeIntoObservable_undefined_noop (JSVal.jobj none [("a", JSVal.jnum 1)]) rfl
  have hne : (mergeIntoObservable (.obsv (JSVal.jobj none [("a", JSVal.jnum 1)])) [JSVal.jnum 3]).2 ≠ [] := by
    simp [mergeIntoObservable, mergeOneT, isObservableT, isObjectT, isObject, JSVal.isUndef]
  exact ⟨rfl, hne, h.1, h.2 (JSVal.jnum 3) hne⟩

/-- C1 counterexample: locking is not per-node.  In a tree whose nodes 0 and
1 share root record 0, `lockObservable` applied to node 0 makes a write
through the unrelated node 1 fail with WriteRejected, contradicting the
claim that locking one node must not reject writes through other nodes of
the same tree. -/
theorem lock_not_per_node_counterexample :
    setValue (lockObservable ⟨fun _ => some 0, fun _ => false, fun _ => 0⟩ 0 true) 1 99 =
      Except.error WriteError.writeRejected := rfl

/-- C1 amended: locking is per-tree.  `lockObservable(node, true)` sets the
locked flag of the node's tree-wide shared root record (not of that node
alone), after which `setValue` through every node sharing that root — not
only the locked node — fails with WriteRejected and leaves values unchanged;
`lockObservable(node, false)` restores writability through all of them. -/
theorem lock_is_tree_wide (s : LockTree) (a b r : Nat) (v : Int)
    (ha : s.nodeRoot a = some r) (hb : s.nodeRoot b = some r) :
    setValue (lockObservable s a true) b v = Except.error WriteError.writeRejected ∧
    (lockObservable s a true).values = s.values ∧
    (∃ s2, setValue (lockObservable s a false) b v = Except.ok s2 ∧ s2.values b = v) := by
  refine ⟨?_, ?_, ?_⟩
  · simp [lockObservable, ha, setValue, hb]
  · simp [lockObservable, ha]
  · refine ⟨{ nodeRoot := s.nodeRoot,
              locked := fun r' => if r' = r then false else s.locked r',
              values := fun n => if n = b then v else s.values n }, ?_, by simp⟩
    simp [lockObservable, ha, setValue, hb]

/-- C1 amended, witness: a concrete two-node tree sharing root 0 with all the
hypotheses discharged. -/
theorem lock_is_tree_wide_witness :
    (LockTree.mk (fun _ => some 0) (fun _ => false) (fun _ => 0)).nodeRoot 0 = some 0 ∧
    (LockTree.mk (fun _ => some 0) (fun _ => false) (fun _ => 0)).nodeRoot 1 = some 0 ∧
    (setValue (lockObservable (LockTree.mk (fun _ => some 0) (fun _ => false) (fun _ => 0)) 0 true) 1 7 =
       Except.error WriteError.writeRejected ∧
     (lockObservable (LockTree.mk (fun _ => some 0) (fun _ => false) (fun _ => 0)) 0 true).values =
       (LockTree.mk (fun _ => some 0) (fun _ => false) (fun _ => 0)).values ∧
     (∃ s2, setValue (lockObservable (LockTree.mk (fun _ => some 0) (fun _ => false) (fun _ => 0)) 0 false) 1 7 =
        Except.ok s2 ∧ s2.values 1 = 7)) :=
  ⟨rfl, rfl, lock_is_tree_wide _ 0 1 0 7 rfl rfl⟩

/-- Running reads against a state with an active context appends all of them,
in order, to the innermost context only. -/
theorem runReads_cons (os : List (Nat × TrackingType)) :
    ∀ (c : List (Nat × TrackingType)) (rest : List (List (Nat × TrackingType))),
      runReads ⟨c :: rest⟩ os = ⟨(c ++ os) :: rest⟩ := by
  induction os with
  | nil => intro c rest; simp [runReads]
  | cons o os ih =>
      intro c rest
      simp [runReads, trackRead, ih]

/-- C5: tracking isolation — a read with no active tracking context records
no dependency anywhere; a nested tracked evaluation restores the ambient
state exactly (its reads do not leak into the outer context) while returning
precisely its own reads; and an outer evaluation's context ends up holding
what it held before plus only the outer evaluation's own reads. -/
theorem tracking_isolation :
    (∀ (s : TrackState) (n : Nat) (t : TrackingType), s.stack = [] → trackRead s n t = s) ∧
    (∀ (s : TrackState) (rs : List (Nat × TrackingType)), runTracked s rs = (s, rs)) ∧
    (∀ (c : List (Nat × TrackingType)) (rest : List (List (Nat × TrackingType)))
        (os : List (Nat × TrackingType)),
        runReads ⟨c :: rest⟩ os = ⟨(c ++ os) :: rest⟩) := by
  refine ⟨?_, ?_, fun c rest os => runReads_cons os c rest⟩
  · intro s n t h
    obtain ⟨st⟩ := s
    simp only at h
    subst h
    rfl
  · intro s rs
    obtain ⟨st⟩ := s
    simp [runTracked, pushContext, runReads_cons, popContext]

/-- C5 witness: an untracked read at empty stack is a no-op, and a concrete
nested tracked call leaves the outer context untouched while collecting its
own reads. -/
theorem tracking_isolation_witness :
    ((⟨[]⟩ : TrackState).stack = [] ∧ trackRead ⟨[]⟩ 5 TrackingType.deep = ⟨[]⟩) ∧
    runTracked ⟨[[(1, TrackingType.deep)]]⟩ [(2, TrackingType.shallow), (3, TrackingType.deep)] =
      (⟨[[(1, TrackingType.deep)]]⟩, [(2, TrackingType.shallow), (3, TrackingType.deep)]) :=
  ⟨⟨rfl, tracking_isolation.1 ⟨[]⟩ 5 TrackingType.deep rfl⟩,
   tracking_isolation.2.1 ⟨[[(1, TrackingType.deep)]]⟩ [(2, TrackingType.shallow), (3, TrackingType.deep)]⟩

/-- A disposed `when` effect never invokes its callback again. -/
theorem whenRunAux_disposed (vs : List JSVal) : ∀ i, whenRunAux true i vs = [] := by
  induction vs with
  | nil => intro i; rfl
  | cons v vs ih => intro i; simp [whenRunAux, ih]

/-- The invocation list of a live `when` effect is the first truthy index of
the remaining predicate values, offset by the current position. -/
theorem whenRunAux_live (vs : List JSVal) :
    ∀ i, whenRunAux false i vs =
      (match firstTruthyIdx vs with
       | some j => [i + j]
       | none => []) := by
  induction vs with
  | nil => intro i; rfl
  | cons v vs ih =>
      intro i
      by_cases hv : v.truthy
      · simp [whenRunAux, hv, firstTruthyIdx, whenRunAux_disposed]
      · simp only [whenRunAux, hv, if_neg, Bool.false_eq_true, if_false, firstTruthyIdx, ih]
        cases h : firstTruthyIdx vs with
        | none => simp
        | some j => simp [Nat.add_assoc, Nat.add_comm 1 j]

/-- C4: `when` is strictly one-shot — over any sequence of predicate values
(the value at creation followed by the values at each dependency
notification), the callback is never invoked at a falsy value, is invoked
exactly once at the first truthy value if one ever occurs, and is never
invoked again afterwards (the effect is disposed). -/
theorem when_one_shot (vs : List JSVal) :
    whenRun vs =
      (match firstTruthyIdx vs with
       | some j => [j]
       | none => []) ∧
    (∀ j ∈ whenRun vs, firstTruthyIdx vs = some j) ∧
    (whenRun vs).length ≤ 1 := by
  have h := whenRunAux_live vs 0
  simp only [Nat.zero_add] at h
  refine ⟨h, ?_, ?_⟩
  · intro j hj
    rw [whenRun, h] at hj
    cases hfi : firstTruthyIdx vs with
    | none => rw [hfi] at hj; simp at hj
    | some i => rw [hfi] at hj; simp at hj; rw [hj]
  · rw [whenRun, h]
    cases firstTruthyIdx vs <;> simp

/-- Updating an existing key leaves the object's key list unchanged. -/
theorem setField_keys_of_lookup (k : String) (v : JSVal) :
    ∀ fs : List (String × JSVal), (fs.lookup k).isSome →
      (setField fs k v).map Prod.fst = fs.map Prod.fst := by
  intro fs
  induction fs with
  | nil => intro h; simp [List.lookup] at h
  | cons p rest ih =>
      obtain ⟨k', v'⟩ := p
      intro h
      by_cases hk : k' = k
      · subst hk
        simp [setField]
      · have hk2 : (k == k') = false := beq_eq_false_iff_ne.mpr fun he => hk he.symm
        simp only [List.lookup, hk2] at h
        simp [setField, hk, ih h]

/-- After updating a key, looking that key up yields the new value. -/
theorem lookup_setField (k : String) (v : JSVal) :
    ∀ fs : List (String × JSVal), (setField fs k v).lookup k = some v := by
  intro fs
  induction fs with
  | nil => simp [setField, List.lookup]
  | cons p rest ih =>
      obtain ⟨k', v'⟩ := p
      by_cases hk : k' = k
      · subst hk; simp [setField, List.lookup]
      · have hk2 : (k == k') = false := beq_eq_false_iff_ne.mpr fun he => hk he.symm
        simp [setField, hk, List.lookup, hk2, ih]

/-- Writing an absent key appends it to the object's key list. -/
theorem setField_keys_of_absent (k : String) (v : JSVal) :
    ∀ fs : List (String × JSVal), fs.lookup k = none →
      (setField fs k v).map Prod.fst = fs.map Prod.fst ++ [k] := by
  intro fs
  induction fs with
  | nil => intro _; simp [setField]
  | cons p rest ih =>
      obtain ⟨k', v'⟩ := p
      intro h
      by_cases hk : k' = k
      · subst hk
        simp [List.lookup] at h
      · have hk2 : (k == k') = false := beq_eq_false_iff_ne.mpr fun he => hk he.symm
        simp only [List.lookup, hk2] at h
        simp [setField, hk, ih h]

/-- Removing a present key shrinks the object by exactly one field. -/
theorem removeField_length (k : String) :
    ∀ fs : List (String × JSVal), k ∈ fs.map Prod.fst →
      fs.length = (removeField fs k).length + 1 := by
  intro fs
  induction fs with
  | nil => intro h; simp at h
  | cons p rest ih =>
      obtain ⟨k', v'⟩ := p
      intro h
      by_cases hk : k' = k
      · subst hk; simp [removeField]
      · have hmem : k ∈ rest.map Prod.fst := by
          simp only [List.map_cons, List.mem_cons] at h
          rcases h with h1 | h1
          · exact absurd h1.symm hk
          · exact h1
        simp only [removeField, if_neg hk, List.length_cons]
        rw [ih hmem]

/-- C3: shallow versus deep listener firing on a container node — changing
the value of an existing child (an object's existing key, or an array's
element at an existing index) does not fire a shallow listener but fires a
deep one; adding a key, removing a key, or any change of an array's length
fires both. -/
theorem shallow_vs_deep_firing
    (dm : Option Nat) (fs : List (String × JSVal)) (k : String) (oldv newv : JSVal)
    (es es2 : List JSVal) (i : Nat) (x : JSVal) :
    (fs.lookup k = some oldv → newv ≠ oldv →
      (¬ listenerFires .shallow (.jobj dm fs) (setChildValue (.jobj dm fs) k newv) ∧
       listenerFires .deep (.jobj dm fs) (setChildValue (.jobj dm fs) k newv))) ∧
    (fs.lookup k = none →
      (listenerFires .shallow (.jobj dm fs) (setChildValue (.jobj dm fs) k newv) ∧
       listenerFires .deep (.jobj dm fs) (setChildValue (.jobj dm fs) k newv))) ∧
    (k ∈ fs.map Prod.fst →
      (listenerFires .shallow (.jobj dm fs) (.jobj dm (removeField fs k)) ∧
       listenerFires .deep (.jobj dm fs) (.jobj dm (removeField fs k)))) ∧
    (∀ hi : i < es.length, x ≠ es[i] →
      (¬ listenerFires .shallow (.jarr es) (.jarr (es.set i x)) ∧
       listenerFires .deep (.jarr es) (.jarr (es.set i x)))) ∧
    (es.length ≠ es2.length →
      (listenerFires .shallow (.jarr es) (.jarr es2) ∧
       listenerFires .deep (.jarr es) (.jarr es2))) := by
  refine ⟨?_, ?_, ?_, ?_, ?_⟩
  · intro h1 h2
    constructor
    · intro hne
      apply hne
      show shallowSig _ = shallowSig _
      simp only [setChildValue, shallowSig]
      rw [setField_keys_of_lookup k newv fs (by simp [h1])]
    · intro heq
      simp only [setChildValue] at heq
      injection heq with _ hfs
      rw [hfs] at h1
      rw [lookup_setField] at h1
      exact h2 (Option.some.inj h1)
  · intro h
    constructor
    · intro heq
      simp only [setChildValue, listenerFires, shallowSig] at heq
      injection heq with hks
      rw [setField_keys_of_absent k newv fs h] at hks
      simpa using congrArg List.length hks
    · intro heq
      simp only [setChildValue] at heq
      injection heq with _ hfs
      have hks := congrArg (List.map Prod.fst) hfs
      rw [setField_keys_of_absent k newv fs h] at hks
      simpa using congrArg List.length hks
  · intro h
    constructor
    · intro heq
      simp only [listenerFires, shallowSig] at heq
      injection heq with hks
      have hlen := congrArg List.length hks
      simp only [List.length_map] at hlen
      rw [removeField_length k fs h] at hlen
      omega
    · intro heq
      injection heq with _ hfs
      have hlen := congrArg List.length hfs
      rw [removeField_length k fs h] at hlen
      omega
  · intro hi hx
    constructor
    · intro hne
      apply hne
      show shallowSig _ = shallowSig _
      simp [shallowSig, List.length_set]
    · intro heq
      injection heq with hes
      have h3 := congrArg (fun l : List JSVal => l[i]?) hes
      simp only at h3
      rw [List.getElem?_set_self hi, List.getElem?_eq_getElem hi] at h3
      exact hx (Option.some.inj h3).symm
  · intro hlen
    constructor
    · intro heq
      simp only [listenerFires, shallowSig] at heq
      injection heq with hl2
      exact hlen hl2
    · intro heq
      injection heq with hes
      exact hlen (congrArg List.length hes)

/-- C3 witness: concrete objects and arrays exercising all five firing
scenarios — object child change, key add, key remove, array element change
at an existing index, and an array length change (a shrink) — with every
hypothesis discharged. -/
theorem shallow_vs_deep_firing_witness :
    ([("a", JSVal.jnum 1), ("b", JSVal.jnum 2)].lookup "a" = some (JSVal.jnum 1)) ∧
    (JSVal.jnum 5 ≠ JSVal.jnum 1) ∧
    ([("a", JSVal.jnum 1)].lookup "c" = (none : Option JSVal)) ∧
    ("a" ∈ [("a", JSVal.jnum 1), ("b", JSVal.jnum 2)].map Prod.fst) ∧
    ((0 : Nat) < ([JSVal.jnum 1, JSVal.jnum 2] : List JSVal).length) ∧
    (JSVal.jnum 9 ≠ ([JSVal.jnum 1, JSVal.jnum 2] : List JSVal)[0]) ∧
    (([JSVal.jnum 1] : List JSVal).length ≠ ([] : List JSVal).length) ∧
    (¬ listenerFires .shallow (.jobj none [("a", JSVal.jnum 1), ("b", JSVal.jnum 2)])
        (setChildValue (.jobj none [("a", JSVal.jnum 1), ("b", JSVal.jnum 2)]) "a" (JSVal.jnum 5)) ∧
     listenerFires .deep (.jobj none [("a", JSVal.jnum 1), ("b", JSVal.jnum 2)])
        (setChildValue (.jobj none [("a", JSVal.jnum 1), ("b", JSVal.jnum 2)]) "a" (JSVal.jnum 5))) ∧
    (listenerFires .shallow (.jobj none [("a", JSVal.jnum 1)])
        (setChildValue (.jobj none [("a", JSVal.jnum 1)]) "c" (JSVal.jnum 5)) ∧
     listenerFires .deep (.jobj none [("a", JSVal.jnum 1)])
        (setChildValue (.jobj none [("a", JSVal.jnum 1)]) "c" (JSVal.jnum 5))) ∧
    (listenerFires .shallow (.jobj none [("a", JSVal.jnum 1), ("b", JSVal.jnum 2)])
        (.jobj none (removeField [("a", JSVal.jnum 1), ("b", JSVal.jnum 2)] "a")) ∧
     listenerFires .deep (.jobj none [("a", JSVal.jnum 1), ("b", JSVal.jnum 2)])
        (.jobj none (removeField [("a", JSVal.jnum 1), ("b", JSVal.jnum 2)] "a"))) ∧
    (¬ listenerFires .shallow (.jarr [JSVal.jnum 1, JSVal.jnum 2])
        (.jarr (([JSVal.jnum 1, JSVal.jnum 2] : List JSVal).set 0 (JSVal.jnum 9))) ∧
     listenerFires .deep (.jarr [JSVal.jnum 1, JSVal.jnum 2])
        (.jarr (([JSVal.jnum 1, JSVal.jnum 2] : List JSVal).set 0 (JSVal.jnum 9)))) ∧
    (listenerFires .shallow (.jarr [JSVal.jnum 1]) (.jarr ([] : List JSVal)) ∧
     listenerFires .deep (.jarr [JSVal.jnum 1]) (.jarr ([] : List JSVal))) := by
  have h1 : [("a", JSVal.jnum 1), ("b", JSVal.jnum 2)].lookup "a" = some (JSVal.jnum 1) := rfl
  have h2 : JSVal.jnum 5 ≠ JSVal.jnum 1 := by simp
  have h3 : [("a", JSVal.jnum 1)].lookup "c" = (none : Option JSVal) := rfl
  have h4 : "a" ∈ [("a", JSVal.jnum 1), ("b", JSVal.jnum 2)].map Prod.fst := by simp
  have h5 : (0 : Nat) < ([JSVal.jnum 1, JSVal.jnum 2] : List JSVal).length := by simp
  have h6 : JSVal.jnum 9 ≠ ([JSVal.jnum 1, JSVal.jnum 2] : List JSVal)[0] := by simp
  have h7 : ([JSVal.jnum 1] : List JSVal).length ≠ ([] : List JSVal).length := by simp
  exact ⟨h1, h2, h3, h4, h5, h6, h7,
    (shallow_vs_deep_firing none [("a", JSVal.jnum 1), ("b", JSVal.jnum 2)] "a"
      (JSVal.jnum 1) (JSVal.jnum 5) [JSVal.jnum 1] [] 0 (JSVal.jnum 2)).1 h1 h2,
    (shallow_vs_deep_firing none [("a", JSVal.jnum 1)] "c"
      (JSVal.jnum 1) (JSVal.jnum 5) [JSVal.jnum 1] [] 0 (JSVal.jnum 2)).2.1 h3,
    (shallow_vs_deep_firing none [("a", JSVal.jnum 1), ("b", JSVal.jnum 2)] "a"
      (JSVal.jnum 1) (JSVal.jnum 5) [JSVal.jnum 1] [] 0 (JSVal.jnum 2)).2.2.1 h4,
    (shallow_vs_deep_firing none [("a", JSVal.jnum 1)] "a"
      (JSVal.jnum 1) (JSVal.jnum 5) [JSVal.jnum 1, JSVal.jnum 2] [] 0
      (JSVal.jnum 9)).2.2.2.1 h5 h6,
    (shallow_vs_deep_firing none [("a", JSVal.jnum 1)] "a"
      (JSVal.jnum 1) (JSVal.jnum 5) [JSVal.jnum 1] [] 0 (JSVal.jnum 2)).2.2.2.2 h7⟩

/-- Graph extension is reflexive. -/
theorem childExt_refl (g : NodeGraph) : childExt g g := fun _ _ _ h => h

/-- Graph extension is transitive. -/
theorem childExt_trans {g1 g2 g3 : NodeGraph} (h12 : childExt g1 g2)
    (h23 : childExt g2 g3) : childExt g1 g3 :=
  fun a b c h => h23 a b c (h12 a b c h)

/-- Accessing a child only ever adds edges. -/
theorem getChildNode_ext (g : NodeGraph) (n : Nat) (k : String) :
    childExt g (getChildNode g n k).1 := by
  intro a b c h
  unfold getChildNode
  cases hc : g.child n k with
  | some c' => simpa using h
  | none =>
      simp only
      by_cases hab : a = n ∧ b = k
      · exfalso; obtain ⟨h1, h2⟩ := hab; subst h1; subst h2; rw [hc] at h; exact Option.noConfusion h
      · simp [hab, h]

/-- After `getChildNode`, the requested edge is present and points at the
returned node. -/
theorem getChildNode_child (g : NodeGraph) (n : Nat) (k : String) :
    (getChildNode g n k).1.child n k = some (getChildNode g n k).2 := by
  unfold getChildNode
  cases hc : g.child n k with
  | some c' => simpa using hc
  | none => simp

/-- Resolving a path only ever adds edges. -/
theorem resolve_ext (p : List String) : ∀ (g : NodeGraph) (n : Nat),
    childExt g (resolve g n p).1 := by
  induction p with
  | nil => intro g n; exact childExt_refl g
  | cons k rest ih =>
      intro g n
      exact childExt_trans (getChildNode_ext g n k) (ih _ _)

/-- Resolving any number of paths only ever adds edges. -/
theorem resolvePaths_ext (ps : List (List String)) : ∀ (g : NodeGraph) (root : Nat),
    childExt g (resolvePaths g root ps) := by
  induction ps with
  | nil => intro g root; exact childExt_refl g
  | cons p ps ih =>
      intro g root
      exact childExt_trans (resolve_ext p g root) (ih _ _)

/-- Re-resolving a path in any extension of the graph produced by its first
resolution finds every edge already present: it changes nothing and returns
the same node. -/
theorem resolve_of_ext (p : List String) : ∀ (g g2 : NodeGraph) (n : Nat),
    childExt (resolve g n p).1 g2 → resolve g2 n p = (g2, (resolve g n p).2) := by
  induction p with
  | nil => intro g g2 n _; rfl
  | cons k rest ih =>
      intro g g2 n hext
      have hstep : (getChildNode g n k).1.child n k = some (getChildNode g n k).2 :=
        getChildNode_child g n k
      have hmid : childExt (getChildNode g n k).1 (resolve (getChildNode g n k).1 (getChildNode g n k).2 rest).1 :=
        resolve_ext rest _ _
      have hg2 : g2.child n k = some (getChildNode g n k).2 := by
        apply hext
        apply hmid
        exact hstep
      have hres : resolve g n (k :: rest) =
          resolve (getChildNode g n k).1 (getChildNode g n k).2 rest := rfl
      rw [hres] at hext ⊢
      have hgc2 : getChildNode g2 n k = (g2, (getChildNode g n k).2) := by
        revert hg2
        generalize (getChildNode g n k).2 = c
        intro hg2'
        unfold getChildNode
        rw [hg2']
      show resolve (getChildNode g2 n k).1 (getChildNode g2 n k).2 rest = _
      rw [hgc2]
      exact ih _ _ _ hext

/-- C6: stable node identity — within one tree's lifetime, resolving the same
key path again, even after arbitrarily many other path resolutions, yields
the same node identity as the first resolution (so listeners registered
through one access are seen by every later access to the same path) and
leaves the graph unchanged. -/
theorem resolve_stable_identity (g : NodeGraph) (root : Nat) (p : List String)
    (ops : List (List String)) :
    resolve (resolvePaths (resolve g root p).1 root ops) root p =
      (resolvePaths (resolve g root p).1 root ops, (resolve g root p).2) :=
  resolve_of_ext p g _ root (resolvePaths_ext ops _ root)

/-- A found key index is within the key list. -/
theorem keyIndex_lt_length (k : Nat) :
    ∀ {ks : List Nat} {i : Nat}, keyIndex k ks = some i → i < ks.length := by
  intro ks
  induction ks with
  | nil => intro i h; simp [keyIndex] at h
  | cons k' rest ih =>
      intro i h
      by_cases hk : k' = k
      · rw [keyIndex, if_pos hk] at h
        cases h
        simp only [List.length_cons]
        omega
      · rw [keyIndex, if_neg hk] at h
        cases hrec : keyIndex k rest with
        | none => rw [hrec] at h; simp at h
        | some j =>
            rw [hrec] at h
            simp only [Option.map_some'] at h
            cases h
            have := ih hrec
            simp only [List.length_cons]
            omega

/-- C7: array reconciliation preserves moved-element identity — when a key
is present in both the old and the new array (at old index `i` and new index
`j`), the child node placed at the new index is the very child that lived at
the old index, with its id and listener set intact; and the whole mutation
is delivered as a single notification whose moved-key list contains the
moved key, rather than one notification per affected index. -/
theorem array_reconcile_moved_identity (oldKeys newKeys : List Nat)
    (children : List ArrChild) (nextId : Nat) (k i j : Nat)
    (hlen : children.length = oldKeys.length)
    (hnew : newKeys[j]? = some k)
    (hold : keyIndex k oldKeys = some i)
    (hmoved : i ≠ j) :
    (∃ c : ArrChild, children[i]? = some c ∧
       ((reconcile oldKeys children newKeys nextId).1)[j]? = some c) ∧
    (reconcile oldKeys children newKeys nextId).2.length = 1 ∧
    (∀ nt ∈ (reconcile oldKeys children newKeys nextId).2, k ∈ nt.movedKeys) := by
  have hj : j < newKeys.length := by
    by_contra hcon
    push_neg at hcon
    rw [List.getElem?_eq_none hcon] at hnew
    exact Option.noConfusion hnew
  have hi : i < oldKeys.length := keyIndex_lt_length k hold
  have hi' : i < children.length := by omega
  refine ⟨⟨children[i], List.getElem?_eq_getElem hi', ?_⟩, rfl, ?_⟩
  · show ((List.range newKeys.length).map
        (reconChild oldKeys children nextId newKeys))[j]? = _
    rw [List.getElem?_map, List.getElem?_range hj]
    simp only [Option.map_some', reconChild, hnew, hold, List.getElem?_eq_getElem hi',
      Option.getD_some]
  · intro nt hnt
    simp only [reconcile, List.mem_singleton] at hnt
    subst hnt
    show k ∈ movedKeyList oldKeys newKeys
    rw [movedKeyList, List.mem_filterMap]
    refine ⟨j, List.mem_range.mpr hj, ?_⟩
    simp only [hnew, hold]
    simp [hmoved]

/-- C7 witness: the specification's example — keys `[1,2,3]` with element 1
moving to the end in `[2,3,1]`: the child node for key 1 (id 10, one deep
listener) survives at index 2, and the single notification lists key 1 as
moved. -/
theorem array_reconcile_moved_identity_witness :
    (([⟨10, [100]⟩, ⟨11, []⟩, ⟨12, []⟩] : List ArrChild).length = [1, 2, 3].length) ∧
    (([2, 3, 1] : List Nat)[2]? = some 1) ∧
    (keyIndex 1 [1, 2, 3] = some 0) ∧
    ((0 : Nat) ≠ 2) ∧
    ((∃ c : ArrChild, ([⟨10, [100]⟩, ⟨11, []⟩, ⟨12, []⟩] : List ArrChild)[0]? = some c ∧
        ((reconcile [1, 2, 3] [⟨10, [100]⟩, ⟨11, []⟩, ⟨12, []⟩] [2, 3, 1] 20).1)[2]? = some c) ∧
     (reconcile [1, 2, 3] [⟨10, [100]⟩, ⟨11, []⟩, ⟨12, []⟩] [2, 3, 1] 20).2.length = 1 ∧
     (∀ nt ∈ (reconcile [1, 2, 3] [⟨10, [100]⟩, ⟨11, []⟩, ⟨12, []⟩] [2, 3, 1] 20).2,
        1 ∈ nt.movedKeys)) :=
  ⟨rfl, rfl, rfl, by decide,
   array_reconcile_moved_identity [1, 2, 3] [2, 3, 1]
     [⟨10, [100]⟩, ⟨11, []⟩, ⟨12, []⟩] 20 1 0 2 rfl rfl rfl (by decide)⟩

/-- A node has a pending entry exactly when it occurs among the pending
keys. -/
theorem pendingHas_iff (pending : List (Nat × Int)) (n : Nat) :
    pendingHas pending n = true ↔ n ∈ pending.map Prod.fst := by
  simp only [pendingHas, List.any_eq_true, List.mem_map, beq_iff_eq]

/-- Writes inside a batch do not change the nesting depth. -/
theorem runWrites_depth (ws : List (Nat × Int)) :
    ∀ s : EngState, 1 ≤ s.depth → (runWrites s ws).depth = s.depth := by
  induction ws with
  | nil => intro s _; rfl
  | cons w ws ih =>
      intro s h
      have hdep : ¬ s.depth = 0 := by omega
      show (runWrites (batchedSet s w.1 w.2).1 ws).depth = s.depth
      rw [batchedSet, if_neg hdep]
      exact ih (applyWrite s w.1 w.2) h

/-- Writes inside a batch do not change the listener registry. -/
theorem runWrites_listeners (ws : List (Nat × Int)) :
    ∀ s : EngState, 1 ≤ s.depth → (runWrites s ws).listeners = s.listeners := by
  induction ws with
  | nil => intro s _; rfl
  | cons w ws ih =>
      intro s h
      have hdep : ¬ s.depth = 0 := by omega
      show (runWrites (batchedSet s w.1 w.2).1 ws).listeners = s.listeners
      rw [batchedSet, if_neg hdep]
      exact ih (applyWrite s w.1 w.2) h

/-- After a sequence of writes inside a batch, a node's current value is the
net value: the last value written to it, or its previous value if it was not
written. -/
theorem runWrites_values (ws : List (Nat × Int)) :
    ∀ (s : EngState) (n : Nat), 1 ≤ s.depth →
      (runWrites s ws).values n = netValue n ws (s.values n) := by
  induction ws with
  | nil => intro s n _; rfl
  | cons w ws ih =>
      intro s n h
      have hdep : ¬ s.depth = 0 := by omega
      show (runWrites (batchedSet s w.1 w.2).1 ws).values n = _
      rw [batchedSet, if_neg hdep]
      rw [ih (applyWrite s w.1 w.2) n h]
      have hv : (applyWrite s w.1 w.2).values n = if w.1 = n then w.2 else s.values n := by
        by_cases hn : n = w.1
        · subst hn; simp [applyWrite]
        · have hn' : ¬ w.1 = n := fun he => hn he.symm
          simp [applyWrite, hn, hn']
      rw [hv]
      rfl

/-- Pending entries are never dropped by further writes in the same batch. -/
theorem runWrites_pending_mono (ws : List (Nat × Int)) :
    ∀ (s : EngState) (q : Nat × Int), 1 ≤ s.depth → q ∈ s.pending →
      q ∈ (runWrites s ws).pending := by
  induction ws with
  | nil => intro s q _ hq; exact hq
  | cons w ws ih =>
      intro s q h hq
      have hdep : ¬ s.depth = 0 := by omega
      show q ∈ (runWrites (batchedSet s w.1 w.2).1 ws).pending
      rw [batchedSet, if_neg hdep]
      apply ih (applyWrite s w.1 w.2) q h
      show q ∈ (if pendingHas s.pending w.1 then s.pending
        else s.pending ++ [(w.1, s.values w.1)])
      by_cases hh : pendingHas s.pending w.1
      · rw [if_pos hh]; exact hq
      · rw [if_neg hh]; exact List.mem_append_left _ hq

/-- The first write to a node inside a batch captures the node's value at
that moment — which, if the node had no pending entry yet, is its pre-batch
value — and the captured pair stays in the pending set. -/
theorem runWrites_pending_first (ws : List (Nat × Int)) :
    ∀ (s : EngState) (n : Nat), 1 ≤ s.depth → n ∉ s.pending.map Prod.fst →
      n ∈ ws.map Prod.fst → (n, s.values n) ∈ (runWrites s ws).pending := by
  induction ws with
  | nil => intro s n _ _ hw; simp at hw
  | cons w ws ih =>
      intro s n h hnp hw
      have hdep : ¬ s.depth = 0 := by omega
      show (n, s.values n) ∈ (runWrites (batchedSet s w.1 w.2).1 ws).pending
      rw [batchedSet, if_neg hdep]
      by_cases hwn : w.1 = n
      · have hhas : ¬ pendingHas s.pending w.1 = true := by
          rw [hwn]
          intro hcon
          exact hnp ((pendingHas_iff _ _).mp hcon)
        apply runWrites_pending_mono ws (applyWrite s w.1 w.2) _ h
        show (n, s.values n) ∈ (if pendingHas s.pending w.1 then s.pending
          else s.pending ++ [(w.1, s.values w.1)])
        rw [if_neg hhas, hwn]
        exact List.mem_append_right _ (List.mem_singleton.mpr rfl)
      · have hw' : n ∈ ws.map Prod.fst := by
          simp only [List.map_cons, List.mem_cons] at hw
          rcases hw with h1 | h1
          · exact absurd h1.symm hwn
          · exact h1
        have hval : (applyWrite s w.1 w.2).values n = s.values n := by
          have hn' : ¬ n = w.1 := fun he => hwn he.symm
          simp [applyWrite, hn']
        have hnp' : n ∉ (applyWrite s w.1 w.2).pending.map Prod.fst := by
          show n ∉ (if pendingHas s.pending w.1 then s.pending
            else s.pending ++ [(w.1, s.values w.1)]).map Prod.fst
          by_cases hh : pendingHas s.pending w.1
          · rw [if_pos hh]; exact hnp
          · rw [if_neg hh]
            simp only [List.map_append, List.mem_append, List.map_cons, List.map_nil,
              List.mem_singleton]
            rintro (hc | hc)
            · exact hnp hc
            · exact hwn hc.symm
        have := ih (applyWrite s w.1 w.2) n h hnp' hw'
        rw [hval] at this
        exact this

/-- Writes inside a batch keep the pending keys duplicate-free. -/
theorem runWrites_pending_nodup (ws : List (Nat × Int)) :
    ∀ s : EngState, 1 ≤ s.depth → (s.pending.map Prod.fst).Nodup →
      ((runWrites s ws).pending.map Prod.fst).Nodup := by
  induction ws with
  | nil => intro s _ hnd; exact hnd
  | cons w ws ih =>
      intro s h hnd
      have hdep : ¬ s.depth = 0 := by omega
      show ((runWrites (batchedSet s w.1 w.2).1 ws).pending.map Prod.fst).Nodup
      rw [batchedSet, if_neg hdep]
      apply ih (applyWrite s w.1 w.2) h
      show ((if pendingHas s.pending w.1 then s.pending
        else s.pending ++ [(w.1, s.values w.1)]).map Prod.fst).Nodup
      by_cases hh : pendingHas s.pending w.1
      · rw [if_pos hh]; exact hnd
      · rw [if_neg hh]
        have hnmem : w.1 ∉ s.pending.map Prod.fst := by
          intro hc
          exact hh ((pendingHas_iff _ _).mpr hc)
        simp only [List.map_append, List.map_cons, List.map_nil]
        simp [List.nodup_append, hnd, hnmem]

/-- Every pending entry for a node carries the node's pre-batch value: the
invariant holds initially (no entry and the current value is the pre-batch
value) and is preserved across any write sequence. -/
theorem runWrites_pending_value (ws : List (Nat × Int)) :
    ∀ (s : EngState) (n : Nat) (v0 : Int), 1 ≤ s.depth →
      ((n ∈ s.pending.map Prod.fst ∧ (∀ q ∈ s.pending, q.1 = n → q.2 = v0)) ∨
       (n ∉ s.pending.map Prod.fst ∧ s.values n = v0)) →
      ∀ q ∈ (runWrites s ws).pending, q.1 = n → q.2 = v0 := by
  induction ws with
  | nil =>
      intro s n v0 _ hinv q hq hqn
      rcases hinv with ⟨_, hall⟩ | ⟨hnm, _⟩
      · exact hall q hq hqn
      · exact absurd (List.mem_map.mpr ⟨q, hq, hqn⟩) hnm
  | cons w ws ih =>
      intro s n v0 h hinv q hq hqn
      have hdep : ¬ s.depth = 0 := by omega
      rw [show runWrites s (w :: ws) = runWrites (batchedSet s w.1 w.2).1 ws from rfl,
        batchedSet, if_neg hdep] at hq
      refine ih (applyWrite s w.1 w.2) n v0 h ?_ q hq hqn
      rcases hinv with ⟨hmem, hall⟩ | ⟨hnmem, hval⟩
      · left
        by_cases hh : pendingHas s.pending w.1
        · constructor
          · show n ∈ (if pendingHas s.pending w.1 then s.pending
              else s.pending ++ [(w.1, s.values w.1)]).map Prod.fst
            rw [if_pos hh]; exact hmem
          · intro q' hq' hq'n
            rw [show (applyWrite s w.1 w.2).pending = (if pendingHas s.pending w.1 then s.pending
              else s.pending ++ [(w.1, s.values w.1)]) from rfl, if_pos hh] at hq'
            exact hall q' hq' hq'n
        · constructor
          · show n ∈ (if pendingHas s.pending w.1 then s.pending
              else s.pending ++ [(w.1, s.values w.1)]).map Prod.fst
            rw [if_neg hh]
            simp only [List.map_append, List.mem_append]
            exact Or.inl hmem
          · intro q' hq' hq'n
            rw [show (applyWrite s w.1 w.2).pending = (if pendingHas s.pending w.1 then s.pending
              else s.pending ++ [(w.1, s.values w.1)]) from rfl, if_neg hh] at hq'
            rcases List.mem_append.mp hq' with hc | hc
            · exact hall q' hc hq'n
            · exfalso
              have hq'e := List.mem_singleton.mp hc
              apply hh
              apply (pendingHas_iff _ _).mpr
              rw [show w.1 = q'.1 from by rw [hq'e], hq'n]
              exact hmem
      · by_cases hwn : w.1 = n
        · left
          have hh : ¬ pendingHas s.pending w.1 = true := by
            rw [hwn]
            intro hcon
            exact hnmem ((pendingHas_iff _ _).mp hcon)
          constructor
          · show n ∈ (if pendingHas s.pending w.1 then s.pending
              else s.pending ++ [(w.1, s.values w.1)]).map Prod.fst
            rw [if_neg hh]
            simp only [List.map_append, List.mem_append, List.map_cons, List.map_nil,
              List.mem_singleton]
            exact Or.inr hwn.symm
          · intro q' hq' hq'n
            rw [show (applyWrite s w.1 w.2).pending = (if pendingHas s.pending w.1 then s.pending
              else s.pending ++ [(w.1, s.values w.1)]) from rfl, if_neg hh] at hq'
            rcases List.mem_append.mp hq' with hc | hc
            · exact absurd (List.mem_map.mpr ⟨q', hc, hq'n⟩) hnmem
            · have hq'e := List.mem_singleton.mp hc
              rw [hq'e]
              show s.values w.1 = v0
              rw [hwn]
              exact hval
        · right
          constructor
          · show n ∉ (if pendingHas s.pending w.1 then s.pending
              else s.pending ++ [(w.1, s.values w.1)]).map Prod.fst
            by_cases hh : pendingHas s.pending w.1
            · rw [if_pos hh]; exact hnmem
            · rw [if_neg hh]
              simp only [List.map_append, List.mem_append, List.map_cons, List.map_nil,
                List.mem_singleton]
              rintro (hc | hc)
              · exact hnmem hc
              · exact hwn hc.symm
          · have hn' : ¬ n = w.1 := fun he => hwn he.symm
            show (if n = w.1 then w.2 else s.values n) = v0
            rw [if_neg hn']
            exact hval

/-- Filtering for a key absent from a pair list yields nothing. -/
theorem filter_key_nil (n : Nat) :
    ∀ l : List (Nat × Int), n ∉ l.map Prod.fst →
      l.filter (fun q => q.1 == n) = [] := by
  intro l
  induction l with
  | nil => intro _; rfl
  | cons q rest ih =>
      intro hn
      simp only [List.map_cons, List.mem_cons] at hn
      push_neg at hn
      have hq : (q.1 == n) = false := beq_eq_false_iff_ne.mpr fun he => hn.1 he.symm
      simp only [List.filter_cons, hq]
      exact ih hn.2

/-- With duplicate-free keys, filtering for the key of a member pair yields
exactly that pair. -/
theorem filter_key_eq (n : Nat) (p : Int) :
    ∀ l : List (Nat × Int), (l.map Prod.fst).Nodup → (n, p) ∈ l →
      l.filter (fun q => q.1 == n) = [(n, p)] := by
  intro l
  induction l with
  | nil => intro _ hm; simp at hm
  | cons q rest ih =>
      intro hnd hmem
      simp only [List.map_cons, List.nodup_cons] at hnd
      rcases List.mem_cons.mp hmem with heq | hmem'
      · have h1 : n ∉ rest.map Prod.fst := by
          have h2 := hnd.1
          rw [← heq] at h2
          exact h2
        rw [← heq]
        simp [List.filter_cons, filter_key_nil n rest h1]
      · have hkn : n ∈ rest.map Prod.fst := List.mem_map.mpr ⟨(n, p), hmem', rfl⟩
        have hq : (q.1 == n) = false := beq_eq_false_iff_ne.mpr fun he => hnd.1 (he ▸ hkn)
        simp only [List.filter_cons, hq]
        exact ih hnd.2 hmem'

/-- Filtering distributes over `flatMap`. -/
theorem filter_flatMap_eq {α β : Type} (q : β → Bool) (f : α → List β) :
    ∀ l : List α, (l.flatMap f).filter q = l.flatMap fun a => (f a).filter q := by
  intro l
  induction l with
  | nil => rfl
  | cons a rest ih => simp only [List.flatMap_cons, List.filter_append, ih]

/-- A `flatMap` whose function vanishes off one key can be restricted to the
entries with that key. -/
theorem flatMap_filter_key {β : Type} (f : Nat × Int → List β) (n : Nat)
    (hf : ∀ p : Nat × Int, p.1 ≠ n → f p = []) :
    ∀ l : List (Nat × Int), l.flatMap f = (l.filter fun q => q.1 == n).flatMap f := by
  intro l
  induction l with
  | nil => rfl
  | cons q rest ih =>
      by_cases hq : q.1 = n
      · have hqb : (q.1 == n) = true := beq_iff_eq.mpr hq
        simp only [List.flatMap_cons, List.filter_cons, hqb, if_true, ih]
      · have hqb : (q.1 == n) = false := beq_eq_false_iff_ne.mpr hq
        simp [List.flatMap_cons, List.filter_cons, hqb, ih, hf q hq]

/-- Counting the change records addressed to one listener id among the
records fanned out to a node's listener list. -/
theorem filter_notif_count (n lid : Nat) (v pv : Int) :
    ∀ ls : List Nat,
      ((ls.map (fun l => Notif.mk n l v pv)).filter
        (fun nt => nt.node == n && nt.listener == lid)).length = ls.count lid := by
  intro ls
  induction ls with
  | nil => rfl
  | cons a rest ih =>
      simp only [List.map_cons, List.filter_cons, List.count_cons]
      by_cases ha : a = lid
      · subst ha
        simp [ih]
      · have hb : (a == lid) = false := beq_eq_false_iff_ne.mpr ha
        simp [hb, ih]

/-- C2: batching coalesces per node — starting outside any batch, open a
batch, perform any write sequence that touches node `n` at least once, and
close the batch: a listener registered once on `n` receives exactly one
change record, whose final value is the node's state after all the writes
and whose previous value is the node's state immediately before the batch
began. -/
theorem batching_coalesces (s0 : EngState) (n lid : Nat) (ws : List (Nat × Int))
    (hd : s0.depth = 0) (hp : s0.pending = [])
    (hl : (s0.listeners n).count lid = 1)
    (hw : n ∈ ws.map Prod.fst) :
    ((endBatch (runWrites (beginBatch s0) ws)).2.filter
        (fun nt => nt.node == n && nt.listener == lid)).length = 1 ∧
    (∀ nt ∈ (endBatch (runWrites (beginBatch s0) ws)).2, nt.node = n →
       nt.value = netValue n ws (s0.values n) ∧ nt.prevValue = s0.values n) := by
  have hge : 1 ≤ (beginBatch s0).depth := by simp [beginBatch]
  have h2depth : (runWrites (beginBatch s0) ws).depth = 1 := by
    rw [runWrites_depth ws _ hge]
    simp [beginBatch, hd]
  have hend : endBatch (runWrites (beginBatch s0) ws) =
      flushBatch { runWrites (beginBatch s0) ws with depth := 0 } := by
    rw [endBatch, if_pos h2depth]
  have hlst : (runWrites (beginBatch s0) ws).listeners = s0.listeners := by
    rw [runWrites_listeners ws _ hge]
    rfl
  have hvals : (runWrites (beginBatch s0) ws).values n = netValue n ws (s0.values n) := by
    rw [runWrites_values ws _ n hge]
    rfl
  have hnp0 : n ∉ (beginBatch s0).pending.map Prod.fst := by
    show n ∉ s0.pending.map Prod.fst
    rw [hp]
    simp
  have hpfirst : (n, s0.values n) ∈ (runWrites (beginBatch s0) ws).pending :=
    runWrites_pending_first ws (beginBatch s0) n hge hnp0 hw
  have hnodup : ((runWrites (beginBatch s0) ws).pending.map Prod.fst).Nodup := by
    apply runWrites_pending_nodup ws _ hge
    show (s0.pending.map Prod.fst).Nodup
    rw [hp]
    simp
  have hpval : ∀ q ∈ (runWrites (beginBatch s0) ws).pending, q.1 = n → q.2 = s0.values n := by
    apply runWrites_pending_value ws (beginBatch s0) n (s0.values n) hge
    right
    exact ⟨hnp0, rfl⟩
  have hvanish : ∀ p : Nat × Int, p.1 ≠ n →
      (((runWrites (beginBatch s0) ws).listeners p.1).map
        (fun l => Notif.mk p.1 l ((runWrites (beginBatch s0) ws).values p.1) p.2)).filter
        (fun nt => nt.node == n && nt.listener == lid) = [] := by
    intro p hpne
    rw [List.filter_eq_nil_iff]
    intro nt hnt
    obtain ⟨l', _, hnteq⟩ := List.mem_map.mp hnt
    rw [← hnteq]
    simp [beq_eq_false_iff_ne.mpr hpne]
  constructor
  · rw [hend]
    show (((runWrites (beginBatch s0) ws).pending.flatMap fun p =>
        ((runWrites (beginBatch s0) ws).listeners p.1).map
          (fun l => Notif.mk p.1 l ((runWrites (beginBatch s0) ws).values p.1) p.2)).filter
        (fun nt => nt.node == n && nt.listener == lid)).length = 1
    rw [filter_flatMap_eq]
    rw [flatMap_filter_key _ n hvanish]
    rw [filter_key_eq n (s0.values n) _ hnodup hpfirst]
    simp only [List.flatMap_cons, List.flatMap_nil, List.append_nil]
    show ((((runWrites (beginBatch s0) ws).listeners n).map
        (fun l => Notif.mk n l ((runWrites (beginBatch s0) ws).values n) (s0.values n))).filter
          (fun nt => nt.node == n && nt.listener == lid)).length = 1
    rw [hlst, filter_notif_count]
    exact hl
  · intro nt hnt hnode
    rw [hend] at hnt
    have hnt' : nt ∈ (runWrites (beginBatch s0) ws).pending.flatMap fun p =>
        ((runWrites (beginBatch s0) ws).listeners p.1).map
          (fun l => Notif.mk p.1 l ((runWrites (beginBatch s0) ws).values p.1) p.2) := hnt
    obtain ⟨p, hpmem, hntmem⟩ := List.mem_flatMap.mp hnt'
    obtain ⟨l', _, hnteq⟩ := List.mem_map.mp hntmem
    have hpn : p.1 = n := by
      rw [← hnteq] at hnode
      exact hnode
    constructor
    · rw [← hnteq]
      show (runWrites (beginBatch s0) ws).values p.1 = netValue n ws (s0.values n)
      rw [hpn]
      exact hvals
    · rw [← hnteq]
      show p.2 = s0.values n
      exact hpval p hpmem hpn

/-- C2 witness: a concrete three-write batch — node 1 is written 5, then
node 2 is written 9, then node 1 is written 11; the single listener (id 7)
on node 1 receives exactly one record with final value 11 and previous value
0. -/
theorem batching_coalesces_witness :
    (EngState.mk 0 [] (fun _ => 0) (fun m => if m = 1 then [7] else [])).depth = 0 ∧
    (EngState.mk 0 [] (fun _ => 0) (fun m => if m = 1 then [7] else [])).pending = [] ∧
    ((EngState.mk 0 [] (fun _ => 0) (fun m => if m = 1 then [7] else [])).listeners 1).count 7 = 1 ∧
    1 ∈ ([(1, 5), (2, 9), (1, 11)] : List (Nat × Int)).map Prod.fst ∧
    (((endBatch (runWrites
          (beginBatch (EngState.mk 0 [] (fun _ => 0) (fun m => if m = 1 then [7] else [])))
          [(1, 5), (2, 9), (1, 11)])).2.filter
        (fun nt => nt.node == 1 && nt.listener == 7)).length = 1 ∧
     (∀ nt ∈ (endBatch (runWrites
          (beginBatch (EngState.mk 0 [] (fun _ => 0) (fun m => if m = 1 then [7] else [])))
          [(1, 5), (2, 9), (1, 11)])).2, nt.node = 1 →
        nt.value = netValue 1 [(1, 5), (2, 9), (1, 11)]
          ((EngState.mk 0 [] (fun _ => 0) (fun m => if m = 1 then [7] else [])).values 1) ∧
        nt.prevValue = (EngState.mk 0 [] (fun _ => 0) (fun m => if m = 1 then [7] else [])).values 1)) :=
  ⟨rfl, rfl, rfl, by simp,
   batching_coalesces (EngState.mk 0 [] (fun _ => 0) (fun m => if m = 1 then [7] else []))
     1 7 [(1, 5), (2, 9), (1, 11)] rfl rfl rfl (by simp)⟩

end LegendState
